import Mathlib

/-!
Shallow embedding of the French verb conjugation scraper
(`conjugation_scraper.py`) and verification of its specification.

Modelling conventions:
* An HTML table element is modelled by `HTable`: the list of cell texts of
  each `tr` row (`rows`), the full `get_text()` of the table (`text`), and
  the texts of the elements returned by successive
  `find_previous(['h2','h3','h4','p','div'])` calls (`prevTexts`,
  nearest first) resp. `find_previous(['h2','h3','h4'])` calls
  (`prevHeadings`).  A document, as far as the parser observes it, is the
  list of its tables.
* Python strings become `String`; `str.strip`, `str.split`, `str.lower`,
  `str.replace` and substring tests are re-implemented below over the
  underlying character lists (Python `strip`/`split` act on whitespace,
  including the non-breaking space).
* `raise ValueError` becomes `Except.error`; the messages keep the
  informative parts of the Python f-strings (quoting punctuation elided).
-/

/-- Characters treated as whitespace by Python `str.strip()` / `str.split()`
(the forms that occur in scraped text, including the non-breaking space). -/
def isPyWs (c : Char) : Bool :=
  c = ' ' || c = '\t' || c = '\n' || c = '\r' || c = '\x0b' || c = '\x0c' || c = '\xa0'

/-- Leading- and trailing-whitespace removal on character lists
(Python `str.strip()`). -/
def stripL (l : List Char) : List Char :=
  ((l.dropWhile isPyWs).reverse.dropWhile isPyWs).reverse

/-- Python `str.strip()`. -/
def pyStrip (s : String) : String := ⟨stripL s.data⟩

/-- Boolean test that `pat` is a prefix of `l`. -/
def prefixOfL : List Char → List Char → Bool
  | [], _ => true
  | _ :: _, [] => false
  | a :: pa, b :: l => a == b && prefixOfL pa l

/-- Boolean substring test (Python `in` on strings). -/
def containsSubL (pat : List Char) : List Char → Bool
  | [] => pat.isEmpty
  | c :: tl => prefixOfL pat (c :: tl) || containsSubL pat tl

/-- Python `pat in s` (substring containment). -/
def strContains (s pat : String) : Bool := containsSubL pat.data s.data

/-- Python `s.startswith(pat)`. -/
def strStartsWith (s pat : String) : Bool := prefixOfL pat.data s.data

/-- Python `str.lower()` (ASCII case folding suffices for the keywords and
tense labels compared by the scraper; the accented letters it meets are
already lower case). -/
def strToLower (s : String) : String := ⟨s.data.map Char.toLower⟩

/-- Python `s.replace(a, b)` for single characters `a`, `b`. -/
def replaceChar (a b : Char) (s : String) : String :=
  ⟨s.data.map (fun c => if c = a then b else c)⟩

/-- `s.replace('\xa0', ' ')` — non-breaking spaces to regular spaces. -/
def replaceNbsp (s : String) : String := replaceChar '\xa0' ' ' s

/-- `s.replace('’', "'")` — Unicode right single quote to apostrophe. -/
def replaceRightQuote (s : String) : String := replaceChar '’' '\'' s

/-- Removal of every (left-to-right, non-overlapping) occurrence of the
two-character pattern `[a, b]` from a character list
(Python `str.replace(pat, '')` for a two-character `pat`). -/
def removePair (a b : Char) : List Char → List Char
  | [] => []
  | [c] => [c]
  | c :: d :: rest =>
    if c = a ∧ d = b then removePair a b rest
    else c :: removePair a b (d :: rest)

/-- `s.replace("j'", "").replace("J'", "")` from the Passé-composé
auxiliary extraction. -/
def removeJApos (s : String) : String :=
  ⟨removePair 'J' '\'' (removePair 'j' '\'' s.data)⟩

/-- Whitespace tokenisation on character lists (Python `str.split()` with no
arguments: split on whitespace runs, dropping empty pieces);
`acc` holds the reversed current token. -/
def wsTokensAux : List Char → List Char → List (List Char)
  | acc, [] => if acc.isEmpty then [] else [acc.reverse]
  | acc, c :: cs =>
    if isPyWs c then
      (if acc.isEmpty then wsTokensAux [] cs else acc.reverse :: wsTokensAux [] cs)
    else wsTokensAux (c :: acc) cs

/-- Python `s.split()`. -/
def wsTokens (s : String) : List String := (wsTokensAux [] s.data).map fun l => ⟨l⟩

/-- `s.split()[-1]` (well defined whenever the split is non-empty). -/
def lastWsToken (s : String) : String := (wsTokens s).getLastD ""

/-- Python `s.rstrip('.,!?;:')` used to clean conjugated forms. -/
def rstripPunct (s : String) : String :=
  ⟨(s.data.reverse.dropWhile (fun c => c ∈ ['.', ',', '!', '?', ';', ':'])).reverse⟩

/-- `s.lower().replace(' ', '_')` — the tense slug used in ids and in the
pronominal extractor's tense field. -/
def strSlug (s : String) : String := replaceChar ' ' '_' (strToLower s)

/-- An HTML `<table>` element, as observed by the scraper. -/
structure HTable where
  /-- Texts of successive `find_previous(['h2','h3','h4','p','div'])`
  results, nearest first (used by `parse_conjugation_table`). -/
  prevTexts : List String
  /-- Texts of successive `find_previous(['h2','h3','h4'])` results,
  nearest first (used by `_extract_pronominal_conjugations_from_table`). -/
  prevHeadings : List String
  /-- `table.get_text()`. -/
  text : String
  /-- For each `tr` of the table, the texts of its `td`/`th` cells. -/
  rows : List (List String)
  deriving DecidableEq, Repr

/-- One output conjugation record (the dict appended by the scraper). -/
structure Conjugation where
  id : String
  infinitive : String
  conjugated_form : String
  transcription : String
  mood : String
  tense : String
  person : String
  deriving DecidableEq, Repr

/-- A record of `_extract_pronominal_conjugations_from_table` (no id and no
infinitive yet; those are attached by the merge step). -/
structure PronConj where
  conjugated_form : String
  transcription : String
  mood : String
  tense : String
  person : String
  deriving DecidableEq, Repr

/-- The fixed person table `self.persons`. -/
def persons : List (String × String) :=
  [("première", "singulier"), ("deuxième", "singulier"), ("troisième", "singulier"),
   ("première", "pluriel"), ("deuxième", "pluriel"), ("troisième", "pluriel")]

/-- The tense header labels recognised by the pronominal extractor
(line 325) and occurring in `required_tenses`. -/
def tenseLabels5 : List String :=
  ["Présent", "Imparfait", "Passé simple", "Passé composé", "Futur simple"]

/-- `required_tenses.get(mood, [])` — allowed tense labels per mood. -/
def requiredTenses (mood : String) : List String :=
  if mood = "indicatif" then
    ["Présent", "Imparfait", "Passé simple", "Passé composé", "Futur simple"]
  else if mood = "subjonctif" then ["Présent", "Imparfait"]
  else if mood = "conditionnel" then ["Présent"]
  else []

/-- The keyword chain applied to one (stripped, lower-cased) candidate text:
`indicatif` before `subjonctif` before `conditionnel` (lines 98–107 and
314–321). -/
def moodKeyword (t : String) : Option String :=
  if strContains t "indicatif" then some "indicatif"
  else if strContains t "subjonctif" then some "subjonctif"
  else if strContains t "conditionnel" then some "conditionnel"
  else none

/-- Mood resolution of `parse_conjugation_table`: collect the texts of up to
10 preceding `h2`/`h3`/`h4`/`p`/`div` elements (stripped, lower-cased) and
return the first keyword match (lines 87–107). -/
def resolveMood (prevTexts : List String) : Option String :=
  ((prevTexts.take 10).map fun t => strToLower (pyStrip t)).findSome? moodKeyword

/-- Mood resolution of the pronominal extractor: same scan over up to 10
preceding `h2`/`h3`/`h4` elements (lines 306–321). -/
def resolveMoodHeadings (prevHeadings : List String) : Option String :=
  ((prevHeadings.take 10).map fun t => strToLower (pyStrip t)).findSome? moodKeyword

/-- The Passé-composé auxiliary/participle recombination of
`parse_conjugation_table` (lines 129–152): yields the conjugated form, or the
`ValueError` the Python raises. -/
def pcRecombine (verb c0 c1 : String) : Except String String :=
  let pronounAux := replaceRightQuote (pyStrip c0)
  let participle := pyStrip c1
  if strStartsWith pronounAux "j'" || strStartsWith pronounAux "J'" then
    let auxPart := pyStrip (removeJApos pronounAux)
    if auxPart = "" then
      .error ("Failed to extract auxiliary verb from " ++ pronounAux ++
        " for verb " ++ verb)
    else if participle ≠ "" then .ok (auxPart ++ " " ++ participle)
    else
      .error ("Failed to extract auxiliary (" ++ auxPart ++ ") or participle (" ++
        participle ++ ") for verb " ++ verb ++ " from pronoun_aux=" ++ pronounAux)
  else if strContains pronounAux " " then
    let auxiliary := lastWsToken pronounAux
    if participle ≠ "" then .ok (auxiliary ++ " " ++ participle)
    else
      .error ("Failed to extract auxiliary (" ++ auxiliary ++ ") or participle (" ++
        participle ++ ") for verb " ++ verb ++ " from pronoun_aux=" ++ pronounAux)
  else
    .error ("Failed to extract auxiliary (None) or participle (" ++ participle ++
      ") for verb " ++ verb ++ " from pronoun_aux=" ++ pronounAux)

/-- The pronunciation columns (lines 154–161 / 340–345): cells 3 and 4
concatenated untrimmed when present, else cell 3 trimmed, else empty. -/
def pronunciationOf (restCells : List String) : String :=
  match restCells with
  | p2 :: p3 :: _ => p2 ++ p3
  | [p2] => pyStrip p2
  | [] => ""

/-- The lower-case list of line 169 guarding against header rows read as
data. -/
def headerGuardLabels : List String :=
  ["présent", "imparfait", "passé simple", "futur simple"]

/-- Processing of one data row of an accepted table in
`parse_conjugation_table` (lines 118–187): `none` for a silently skipped
row, `some` for an emitted record, `Except.error` for the fatal
Passé-composé extraction failure. -/
def stdRowRecord (verb tenseText mood : String) (rowIdx : Nat)
    (cells : List String) : Except String (Option Conjugation) :=
  match cells with
  | c0 :: c1 :: restCells =>
    let formE : Except String String :=
      if strToLower tenseText = "passé composé" then pcRecombine verb c0 c1
      else .ok (pyStrip c1)
    match formE with
    | .error e => .error e
    | .ok form1 =>
      if form1 ≠ "" ∧ form1 ≠ "—" ∧ form1 ≠ "-" then
        let form2 := rstripPunct form1
        if strToLower form2 ∈ headerGuardLabels then .ok none
        else
          match persons.get? rowIdx with
          | some (p, n) =>
            let personNumber := p ++ "_" ++ n
            let tenseName := strSlug tenseText
            .ok (some
              { id := verb ++ " - " ++ mood ++ " - " ++ tenseName ++ " - " ++ personNumber
                infinitive := verb
                conjugated_form := form2
                transcription := pronunciationOf restCells
                mood := mood
                tense := strToLower tenseText
                person := personNumber })
          | none => .ok none
      else .ok none
  | _ => .ok none

/-- The data-row loop of `parse_conjugation_table` (lines 114–187):
`rowIdx` is the enumeration index; the loop breaks at index 6 and skips rows
with fewer than two cells. -/
def processRows (verb tenseText mood : String) :
    Nat → List (List String) → Except String (List Conjugation)
  | _, [] => .ok []
  | rowIdx, row :: rest =>
    if 6 ≤ rowIdx then .ok []
    else
      match stdRowRecord verb tenseText mood rowIdx row with
      | .error e => .error e
      | .ok none => processRows verb tenseText mood (rowIdx + 1) rest
      | .ok (some r) =>
        match processRows verb tenseText mood (rowIdx + 1) rest with
        | .error e => .error e
        | .ok rs => .ok (r :: rs)

/-- Processing of one table in `parse_conjugation_table` (lines 75–187):
read the tense label from the first cell of the first row, resolve the mood
from the preceding elements, and accept the table only when the label is in
the mood's allow-list. -/
def processTable (verb : String) (t : HTable) : Except String (List Conjugation) :=
  match t.rows with
  | [] => .ok []
  | headerRow :: dataRows =>
    match headerRow with
    | [] => .ok []
    | h0 :: _ =>
      let tenseText := pyStrip h0
      match resolveMood t.prevTexts with
      | none => .ok []
      | some mood =>
        if tenseText ∈ requiredTenses mood then
          processRows verb tenseText mood 0 dataRows
        else .ok []

/-- `parse_conjugation_table(soup, verb)` over the document's tables; an
uncaught `ValueError` in any table aborts the whole call. -/
def parseConjugationTable (tables : List HTable) (verb : String) :
    Except String (List Conjugation) :=
  match tables with
  | [] => .ok []
  | t :: ts =>
    match processTable verb t with
    | .error e => .error e
    | .ok rs =>
      match parseConjugationTable ts verb with
      | .error e => .error e
      | .ok more => .ok (rs ++ more)

/-- Passé-composé form of the pronominal extractor (lines 348–363):
`pronounCell` is already stripped and non-breaking-space normalised. -/
def pronPcForm (pronounCell formCell : String) : String :=
  if strContains pronounCell " " then
    let parts := wsTokens pronounCell
    if 3 ≤ parts.length then
      String.intercalate " " (parts.drop 1) ++ " " ++ formCell
    else if parts.length = 2 then parts.getD 1 "" ++ " " ++ formCell
    else pronounCell ++ " " ++ formCell
  else formCell

/-- Other-tense form of the pronominal extractor (lines 364–384): last
pronoun token attached with a space for `nous`/`vous`, directly otherwise. -/
def pronOtherForm (pronounCell formCell : String) : String :=
  if strContains pronounCell " " then
    let parts := wsTokens pronounCell
    if 2 ≤ parts.length then
      let pronominalPart := parts.getLastD ""
      if pronominalPart ∈ ["nous", "vous"] then
        pronominalPart ++ " " ++ formCell
      else pronominalPart ++ formCell
    else formCell
  else formCell

/-- The record (if any) extracted from one pronominal data row
(lines 332–403): cells 1 and 2 are the pronoun and form cells, `idx` the
row index within the current tense block. -/
def pronRowRec (m ct : String) (idx : Nat) (c0 c1 : String)
    (pronCells : List String) : List PronConj :=
  let pronounCell := replaceNbsp (pyStrip c0)
  let formCell := pyStrip c1
  let form1 :=
    if ct = "Passé composé" then pronPcForm pronounCell formCell
    else pronOtherForm pronounCell formCell
  if form1 ≠ "" ∧ form1 ≠ "—" ∧ form1 ≠ "-" then
    match persons.get? idx with
    | some (p, n) =>
      [{ conjugated_form := rstripPunct form1
         transcription := pronunciationOf pronCells
         mood := m
         tense := strSlug ct
         person := p ++ "_" ++ n }]
    | none => []
  else []

/-- The row loop of `_extract_pronominal_conjugations_from_table`
(lines 297–411): a state machine over all rows with the current tense and
the row index within the tense block. -/
def pronRows (mood : Option String) :
    Option String → Nat → List (List String) → List PronConj
  | _, _, [] => []
  | curTense, rowInTense, row :: rest =>
    match row with
    | [] => pronRows mood curTense rowInTense rest
    | c0 :: restCells =>
      let firstCellText := pyStrip c0
      if firstCellText ∈ tenseLabels5 then pronRows mood (some firstCellText) 0 rest
      else
        match curTense, mood with
        | some ct, some m =>
          if ct ∈ requiredTenses m then
            match restCells with
            | c1 :: pronCells =>
              let recs : List PronConj := pronRowRec m ct rowInTense c0 c1 pronCells
              if 6 ≤ rowInTense + 1 then recs ++ pronRows mood none 0 rest
              else recs ++ pronRows mood (some ct) (rowInTense + 1) rest
            | [] => pronRows mood (some ct) rowInTense rest
          else pronRows mood (some ct) rowInTense rest
        | _, _ => pronRows mood curTense rowInTense rest

/-- `_extract_pronominal_conjugations_from_table(table, verb, variant)`
(the `verb`/`variant` arguments are unused by its body). -/
def extractPron (t : HTable) : List PronConj :=
  pronRows (resolveMoodHeadings t.prevHeadings) none 0 t.rows

/-- Stem substrings classifying a table as the assieds/asseye variant
(lines 204–207). -/
def assiedsStems : List String :=
  ["assieds", "assied", "asseyons", "asseyez", "asseyent", "asseye", "asseyions",
   "assiér"]

/-- Stem substrings classifying a table as the assois/assoie variant
(lines 210–213). -/
def assoisStems : List String :=
  ["assois", "assoit", "assoyons", "assoyez", "assoient", "assoie", "assoyions",
   "assoiraient"]

/-- Classification of a table into the assieds variant (lines 200–208). -/
def isAssiedsTable (t : HTable) : Bool :=
  strContains t.text "nous nous" && assiedsStems.any fun stem => strContains t.text stem

/-- Classification of a table into the assois variant (lines 209–214; the
`elif` makes it exclusive with the assieds classification). -/
def isAssoisTable (t : HTable) : Bool :=
  strContains t.text "nous nous" &&
    !(assiedsStems.any fun stem => strContains t.text stem) &&
    (assoisStems.any fun stem => strContains t.text stem)

/-- A (mood, tense, person) merge key. -/
abbrev VKey := String × String × String

/-- The merge key of a pronominal record. -/
def keyOf (c : PronConj) : VKey := (c.mood, c.tense, c.person)

/-- `combined[key] = {'assieds': conj}` (lines 231–233): insert or replace,
keeping the insertion position of an existing key (Python dict semantics). -/
def upsertA (c : PronConj) :
    List (VKey × (Option PronConj × Option PronConj)) →
    List (VKey × (Option PronConj × Option PronConj))
  | [] => [(keyOf c, (some c, none))]
  | (k, v) :: rest =>
    if k = keyOf c then (k, (some c, none)) :: rest else (k, v) :: upsertA c rest

/-- `if key in combined: combined[key]['assois'] = conj` (lines 235–238). -/
def updateB (c : PronConj) :
    List (VKey × (Option PronConj × Option PronConj)) →
    List (VKey × (Option PronConj × Option PronConj))
  | [] => []
  | (k, v) :: rest =>
    if k = keyOf c then (k, (v.1, some c)) :: rest else (k, v) :: updateB c rest

/-- The `combined` map after both insertion passes (lines 230–238), as an
insertion-ordered association list. -/
def buildCombined (assieds assois : List PronConj) :
    List (VKey × (Option PronConj × Option PronConj)) :=
  assois.foldl (fun m c => updateB c m) (assieds.foldl (fun m c => upsertA c m) [])

/-- One combined record (lines 241–271): forms joined with `ou` only when
different, transcriptions likewise (empty ones fall back to the other). -/
def mergeRec (verb : String) (k : VKey) (a b : PronConj) : Conjugation :=
  let combinedForm :=
    if a.conjugated_form ≠ b.conjugated_form then
      a.conjugated_form ++ " ou " ++ b.conjugated_form
    else a.conjugated_form
  let combinedPron :=
    if a.transcription ≠ "" ∧ b.transcription ≠ "" ∧ a.transcription ≠ b.transcription then
      a.transcription ++ " ou " ++ b.transcription
    else if a.transcription ≠ "" then a.transcription
    else b.transcription
  { id := verb ++ " - " ++ k.1 ++ " - " ++ k.2.1 ++ " - " ++ k.2.2
    infinitive := verb
    conjugated_form := combinedForm
    transcription := combinedPron
    mood := k.1
    tense := k.2.1
    person := k.2.2 }

/-- The output loop over `combined` (lines 240–271): only keys holding both
variants yield a record. -/
def mergeVariants (verb : String) (assieds assois : List PronConj) :
    List Conjugation :=
  (buildCombined assieds assois).filterMap fun e =>
    match e.2.1, e.2.2 with
    | some a, some b => some (mergeRec verb e.1 a b)
    | _, _ => none

/-- `parse_sasseoir_conjugations(soup, verb)` (lines 191–273): classify the
tables, fall back to the standard extractor when either variant is missing,
otherwise extract both variants and merge. -/
def parseSasseoir (tables : List HTable) (verb : String) :
    Except String (List Conjugation) :=
  let assiedsTables := tables.filter isAssiedsTable
  let assoisTables := tables.filter isAssoisTable
  if assiedsTables.isEmpty || assoisTables.isEmpty then
    parseConjugationTable tables verb
  else
    .ok (mergeVariants verb (assiedsTables.flatMap extractPron)
      (assoisTables.flatMap extractPron))

/-- Whether `parse_sasseoir_conjugations` prints its missing-variant
warning (line 217). -/
def sasseoirWarns (tables : List HTable) : Bool :=
  (tables.filter isAssiedsTable).isEmpty || (tables.filter isAssoisTable).isEmpty

/-- The special verb name (with the Unicode apostrophe U+2019, line 427). -/
def sAsseoirName : String := "s’asseoir"

/-- `scrape_verb` on an already-fetched document (lines 414–435): dispatch
on the verb name. -/
def scrapeVerb (tables : List HTable) (verb : String) :
    Except String (List Conjugation) :=
  if verb = sAsseoirName then parseSasseoir tables verb
  else parseConjugationTable tables verb

/-- The deduplication loop of `scrape_verbs_from_file` (lines 452–455) for
one verb's record list, given the ids already seen (set membership modelled
on a list). -/
def dedupeAux (seen : List String) : List Conjugation → List Conjugation
  | [] => []
  | r :: rs =>
    if r.id ∈ seen then dedupeAux seen rs
    else r :: dedupeAux (r.id :: seen) rs

/-- The verb loop of `scrape_verbs_from_file` (lines 449–455): each verb's
records are deduplicated against all ids seen so far; an uncaught
`ValueError` from `scrape_verb` aborts the whole loop. -/
def batchAux (seen : List String) :
    List (String × List HTable) → Except String (List Conjugation)
  | [] => .ok []
  | (verb, tables) :: rest =>
    match scrapeVerb tables verb with
    | .error e => .error e
    | .ok conjs =>
      let kept := dedupeAux seen conjs
      match batchAux (kept.map (fun r => r.id) ++ seen) rest with
      | .error e => .error e
      | .ok more => .ok (kept ++ more)

/-- `scrape_verbs_from_file` restricted to its pure core: the accumulated,
deduplicated record sequence over a batch of (verb, document) pairs, or the
uncaught exception that aborts it. -/
def scrapeBatch (items : List (String × List HTable)) :
    Except String (List Conjugation) :=
  batchAux [] items

/-! Equation lemmas used to evaluate the extractor on partly symbolic
documents. -/

theorem parseConjugationTable_cons (t : HTable) (ts : List HTable) (verb : String) :
    parseConjugationTable (t :: ts) verb =
      match processTable verb t with
      | .error e => .error e
      | .ok rs =>
        match parseConjugationTable ts verb with
        | .error e => .error e
        | .ok more => .ok (rs ++ more) := rfl

theorem processTable_eval (verb : String) (prevs hs : List String) (txt h0 : String)
    (hdrRest : List String) (dataRows : List (List String)) :
    processTable verb ⟨prevs, hs, txt, (h0 :: hdrRest) :: dataRows⟩ =
      match resolveMood prevs with
      | none => .ok []
      | some mood =>
        if pyStrip h0 ∈ requiredTenses mood then
          processRows verb (pyStrip h0) mood 0 dataRows
        else .ok [] := rfl

theorem processTable_accept (verb : String) (prevs hs : List String) (txt h0 : String)
    (hdrRest : List String) (dataRows : List (List String)) (mood : String)
    (h : resolveMood prevs = some mood) (ht : pyStrip h0 ∈ requiredTenses mood) :
    processTable verb ⟨prevs, hs, txt, (h0 :: hdrRest) :: dataRows⟩ =
      processRows verb (pyStrip h0) mood 0 dataRows := by
  rw [processTable_eval, h]
  simp [ht]

theorem batchAux_cons (seen : List String) (verb : String) (tables : List HTable)
    (rest : List (String × List HTable)) :
    batchAux seen ((verb, tables) :: rest) =
      match scrapeVerb tables verb with
      | .error e => .error e
      | .ok conjs =>
        let kept := dedupeAux seen conjs
        match batchAux (kept.map (fun r => r.id) ++ seen) rest with
        | .error e => .error e
        | .ok more => .ok (kept ++ more) := rfl

/-! Concrete example documents used by counterexamples and witnesses. -/

/-- A well-formed indicatif Présent table with one data row. -/
def exTblPresent : HTable :=
  ⟨["indicatif"], [], "", [["Présent", ""], ["je", "dîne"]]⟩

/-- An indicatif Passé composé table whose data row is a bare em-dash
placeholder. -/
def exTblPCDash : HTable :=
  ⟨["indicatif"], [], "", [["Passé composé", ""], ["—", "—"]]⟩

/-- An assieds-variant pronominal table whose second data row has the bare
form text `Présent`. -/
def exTblA : HTable :=
  ⟨[], ["indicatif"], "Présent je Présent nous nous asseyons",
   [["Présent"], ["je", "Présent"], ["nous nous", "asseyons"]]⟩

/-- The corresponding assois-variant pronominal table. -/
def exTblB : HTable :=
  ⟨[], ["indicatif"], "Présent je Présent nous nous assoyons",
   [["Présent"], ["je", "Présent"], ["nous nous", "assoyons"]]⟩

/-! C2 — Passé-composé auxiliary extraction and recombination. -/

/-- The Passé-composé conjugated form as the claim words it: the auxiliary
is the remainder of cell 0 after stripping a leading `j'`/`J'` when present,
otherwise the last whitespace-delimited token when cell 0 contains a space;
the form is the auxiliary, a space, and cell 1 trimmed. -/
def pcFormClaimC2 (c0 c1 : String) : Option String :=
  let pa := replaceRightQuote (pyStrip c0)
  let part := pyStrip c1
  if strStartsWith pa "j'" || strStartsWith pa "J'" then
    some (String.mk (pa.data.drop 2) ++ " " ++ part)
  else if strContains pa " " then some (lastWsToken pa ++ " " ++ part)
  else none

/-- The amended wording: in the `j'`/`J'` case the auxiliary is cell 0 with
every occurrence of `j'` and then `J'` removed and the result
whitespace-trimmed (failing when that leaves nothing); the other cases are
unchanged; the extraction also fails when the trimmed participle is empty. -/
def pcFormClaimC2Amended (c0 c1 : String) : Option String :=
  let pa := replaceRightQuote (pyStrip c0)
  let part := pyStrip c1
  if strStartsWith pa "j'" || strStartsWith pa "J'" then
    let auxA := pyStrip (removeJApos pa)
    if auxA = "" ∨ part = "" then none else some (auxA ++ " " ++ part)
  else if strContains pa " " then
    if part = "" then none else some (lastWsToken pa ++ " " ++ part)
  else none

/-- C2, counterexample: on the Passé-composé row cells `"j' ai"`, `"dîné"`
the code produces `"ai dîné"` (it deletes every `j'` occurrence and trims),
while the claimed prefix-stripping rule yields `" ai dîné"`. -/
theorem c2_counterexample :
    (pcRecombine "dîner" "j' ai" "dîné").toOption ≠ pcFormClaimC2 "j' ai" "dîné" ∧
    (pcRecombine "dîner" "j' ai" "dîné").toOption = some "ai dîné" ∧
    pcFormClaimC2 "j' ai" "dîné" = some " ai dîné" := by decide

/-- C2, amended: for every Passé composé row with at least two cells the
conjugated form is the auxiliary, a single space, and the trimmed
participle, where in the `j'`/`J'` case the auxiliary is cell 0 with all
`j'`/`J'` occurrences removed and then trimmed, and otherwise it is the last
whitespace-delimited token of cell 0 when cell 0 contains a space; in
particular cells `"j'ai"`, `"dîné"` yield `"ai dîné"` and `"tu as"`,
`"dîné"` yield `"as dîné"`. -/
theorem c2_pc_recombination (verb c0 c1 : String) :
    (pcRecombine verb c0 c1).toOption = pcFormClaimC2Amended c0 c1 ∧
    pcRecombine "dîner" "j'ai" "dîné" = .ok "ai dîné" ∧
    pcRecombine "dîner" "tu as" "dîné" = .ok "as dîné" := by
  refine ⟨?_, rfl, rfl⟩
  simp only [pcRecombine, pcFormClaimC2Amended]
  split_ifs <;> simp_all [Except.toOption]

/-! C7 — missing-variant fallback of the dual-variant extractor. -/

/-- C7: if either variant's table set is empty, the dual-variant extractor
emits its warning and returns exactly the records of plain standard
extraction on the same document and verb. -/
theorem c7_missing_variant_fallback (tables : List HTable) (verb : String)
    (h : tables.filter isAssiedsTable = [] ∨ tables.filter isAssoisTable = []) :
    sasseoirWarns tables = true ∧
    parseSasseoir tables verb = parseConjugationTable tables verb := by
  rcases h with h | h <;> constructor <;> simp [sasseoirWarns, parseSasseoir, h]

/-- C7, witness: on a document with no tables at all (so both variant sets
are empty) the fallback fires. -/
theorem c7_missing_variant_fallback_witness :
    sasseoirWarns [exTblPresent] = true ∧
    parseSasseoir [exTblPresent] "s’asseoir" =
      parseConjugationTable [exTblPresent] "s’asseoir" :=
  c7_missing_variant_fallback [exTblPresent] "s’asseoir" (Or.inl rfl)

/-! C10 — placeholder rows in the Passé composé special case are fatal. -/

/-- C10: in the standard extractor, a Passé composé data row whose first
cell is the bare placeholder `—` (no space, no `j'` prefix) raises the fatal
extraction error, because recombination runs before the em-dash discard
check; the identical row under any other accepted tense (here `Présent`) is
silently discarded with no error and no record. -/
theorem c10_pc_placeholder_fatal (prevs hs : List String) (txt verb : String)
    (h : resolveMood prevs = some "indicatif") :
    (parseConjugationTable [⟨prevs, hs, txt, [["Passé composé"], ["—", "—"]]⟩] verb).isOk
      = false ∧
    parseConjugationTable [⟨prevs, hs, txt, [["Présent"], ["—", "—"]]⟩] verb = .ok [] := by
  constructor
  · rw [parseConjugationTable_cons, processTable_accept _ _ _ _ _ _ _ _ h (by decide)]
    rfl
  · rw [parseConjugationTable_cons, processTable_accept _ _ _ _ _ _ _ _ h (by decide)]
    rfl

/-- C10, witness: the placeholder behaviour on a concrete document whose
table is preceded by an `indicatif` heading. -/
theorem c10_pc_placeholder_fatal_witness :
    (parseConjugationTable [⟨["indicatif"], [], "", [["Passé composé"], ["—", "—"]]⟩]
      "dîner").isOk = false ∧
    parseConjugationTable [⟨["indicatif"], [], "", [["Présent"], ["—", "—"]]⟩]
      "dîner" = .ok [] :=
  c10_pc_placeholder_fatal ["indicatif"] [] "" "dîner" (by decide)

/-! C1 — what an auxiliary/participle extraction failure aborts. -/

/-- Helper: a failing verb whose predecessors all succeed makes the whole
batch loop raise (there is no try/except around `scrape_verb` in
`scrape_verbs_from_file`). -/
theorem batchAux_error_propagates (verb : String) (tables : List HTable)
    (post : List (String × List HTable)) (e : String)
    (he : scrapeVerb tables verb = .error e) :
    ∀ (pre : List (String × List HTable)) (seen : List String),
      (∀ x ∈ pre, (scrapeVerb x.2 x.1).isOk = true) →
      batchAux seen (pre ++ (verb, tables) :: post) = .error e := by
  intro pre
  induction pre with
  | nil =>
    intro seen _
    rw [List.nil_append, batchAux_cons, he]
  | cons x xs ih =>
    intro seen hall
    obtain ⟨xv, xt⟩ := x
    have hx := hall (xv, xt) (List.mem_cons_self _ _)
    rcases hv : scrapeVerb xt xv with e' | c
    · rw [hv] at hx
      exact absurd hx (by simp [Except.isOk, Except.toBool])
    · rw [List.cons_append, batchAux_cons, hv]
      have hrest := ih ((dedupeAux seen c).map (fun r => r.id) ++ seen)
        (fun y hy => hall y (List.mem_cons_of_mem _ hy))
      simp only [hrest]

/-- C1, counterexample: a batch of two verbs where the first verb's document
contains a Passé composé placeholder row and the second verb's document is
well formed.  The claim says the batch continues and the second verb's
records are emitted; in fact the uncaught `ValueError` aborts the whole
batch and no records at all are produced, although the second verb alone
would have produced a record. -/
theorem c1_counterexample :
    (scrapeBatch [("mauvais", [exTblPCDash]), ("dîner", [exTblPresent])]).isOk = false ∧
    scrapeVerb [exTblPresent] "dîner" =
      .ok [{ id := "dîner - indicatif - présent - première_singulier",
             infinitive := "dîner", conjugated_form := "dîne", transcription := "",
             mood := "indicatif", tense := "présent",
             person := "première_singulier" }] := by
  exact ⟨rfl, rfl⟩

/-- C1, amended: if, in the standard extractor's Passé composé special case,
the auxiliary or the participle cannot be extracted from a row, the raised
error propagates uncaught out of the verb loop and aborts the entire batch
(provided the preceding verbs scraped without error): no records are emitted
for the aborted verb or for any verb of the batch. -/
theorem c1_extraction_error_aborts_batch (pre : List (String × List HTable))
    (verb : String) (tables : List HTable) (post : List (String × List HTable))
    (e : String)
    (hpre : ∀ x ∈ pre, (scrapeVerb x.2 x.1).isOk = true)
    (he : scrapeVerb tables verb = .error e) :
    scrapeBatch (pre ++ (verb, tables) :: post) = .error e :=
  batchAux_error_propagates verb tables post e he pre [] hpre

/-- C1, witness: the amended behaviour on the concrete two-verb batch. -/
theorem c1_extraction_error_aborts_batch_witness :
    scrapeBatch [("mauvais", [exTblPCDash]), ("dîner", [exTblPresent])] =
      .error ("Failed to extract auxiliary (None) or participle (—) for verb " ++
        "mauvais from pronoun_aux=—") :=
  c1_extraction_error_aborts_batch [] "mauvais" [exTblPCDash]
    [("dîner", [exTblPresent])] _ (by intro x hx; cases hx) rfl

/-! Generic facts about records emitted by the standard extractor. -/

/-- Every record emitted for a data row carries the cleaned form (which
passed the header-label guard), the lower-cased tense text, and the resolved
mood. -/
theorem stdRowRecord_emit (verb tT mood : String) (rowIdx : Nat)
    (cells : List String) (r : Conjugation)
    (h : stdRowRecord verb tT mood rowIdx cells = .ok (some r)) :
    strToLower r.conjugated_form ∉ headerGuardLabels ∧
    r.tense = strToLower tT ∧ r.mood = mood := by
  rcases cells with _ | ⟨c0, _ | ⟨c1, rest⟩⟩
  · simp [stdRowRecord] at h
  · simp [stdRowRecord] at h
  · simp only [stdRowRecord] at h
    rcases hf : (if strToLower tT = "passé composé" then pcRecombine verb c0 c1
        else .ok (pyStrip c1)) with e | form1
    · rw [hf] at h; simp at h
    · rw [hf] at h
      simp only [] at h
      by_cases h1 : form1 ≠ "" ∧ form1 ≠ "—" ∧ form1 ≠ "-"
      · rw [if_pos h1] at h
        by_cases h2 : strToLower (rstripPunct form1) ∈ headerGuardLabels
        · rw [if_pos h2] at h; simp at h
        · rw [if_neg h2] at h
          rcases hp : persons.get? rowIdx with _ | ⟨p, n⟩
          · rw [hp] at h; simp at h
          · rw [hp] at h
            simp only [Except.ok.injEq, Option.some.injEq] at h
            subst h
            exact ⟨h2, rfl, rfl⟩
      · rw [if_neg h1] at h; simp at h

/-- Lifting a per-row property of emitted records through the row loop. -/
theorem processRows_records (verb tT mood : String) (P : Conjugation → Prop)
    (hrow : ∀ rowIdx cells r,
      stdRowRecord verb tT mood rowIdx cells = .ok (some r) → P r) :
    ∀ (dataRows : List (List String)) (rowIdx : Nat) (l : List Conjugation),
      processRows verb tT mood rowIdx dataRows = .ok l → ∀ r ∈ l, P r := by
  intro dataRows
  induction dataRows with
  | nil =>
    intro rowIdx l h r hr
    simp only [processRows, Except.ok.injEq] at h
    subst h; cases hr
  | cons row rest ih =>
    intro rowIdx l h r hr
    simp only [processRows] at h
    by_cases h6 : 6 ≤ rowIdx
    · rw [if_pos h6] at h
      simp only [Except.ok.injEq] at h; subst h; cases hr
    · rw [if_neg h6] at h
      rcases hsr : stdRowRecord verb tT mood rowIdx row with e | o
      · rw [hsr] at h; simp at h
      · rw [hsr] at h
        rcases o with _ | rr
        · exact ih (rowIdx + 1) l h r hr
        · rcases hrec : processRows verb tT mood (rowIdx + 1) rest with e | rs
          · rw [hrec] at h; simp at h
          · rw [hrec] at h
            simp only [Except.ok.injEq] at h
            subst h
            rcases List.mem_cons.mp hr with hr | hr
            · exact hr ▸ hrow rowIdx row rr hsr
            · exact ih (rowIdx + 1) rs hrec r hr

/-- Table-level variants of `processTable_eval` for degenerate tables. -/
theorem processTable_noRows (verb : String) (prevs hs : List String) (txt : String) :
    processTable verb ⟨prevs, hs, txt, []⟩ = .ok [] := rfl

theorem processTable_noCells (verb : String) (prevs hs : List String) (txt : String)
    (dataRows : List (List String)) :
    processTable verb ⟨prevs, hs, txt, [] :: dataRows⟩ = .ok [] := rfl

/-- Lifting a per-row property of emitted records, with the accepted tense
label available, through a whole table. -/
theorem processTable_records (verb : String) (P : Conjugation → Prop)
    (hrow : ∀ tT mood rowIdx cells r, tT ∈ requiredTenses mood →
      stdRowRecord verb tT mood rowIdx cells = .ok (some r) → P r)
    (t : HTable) (l : List Conjugation) (h : processTable verb t = .ok l) :
    ∀ r ∈ l, P r := by
  obtain ⟨prevs, hs, txt, rows⟩ := t
  rcases rows with _ | ⟨hdr, dataRows⟩
  · rw [processTable_noRows] at h
    simp only [Except.ok.injEq] at h; subst h; intro r hr; cases hr
  · rcases hdr with _ | ⟨h0, hdrRest⟩
    · rw [processTable_noCells] at h
      simp only [Except.ok.injEq] at h; subst h; intro r hr; cases hr
    · rw [processTable_eval] at h
      rcases hm : resolveMood prevs with _ | mood
      · rw [hm] at h
        simp only [Except.ok.injEq] at h; subst h; intro r hr; cases hr
      · rw [hm] at h
        simp only [] at h
        by_cases ht : pyStrip h0 ∈ requiredTenses mood
        · rw [if_pos ht] at h
          exact processRows_records verb (pyStrip h0) mood P
            (fun rowIdx cells r => hrow (pyStrip h0) mood rowIdx cells r ht)
            dataRows 0 l h
        · rw [if_neg ht] at h
          simp only [Except.ok.injEq] at h; subst h; intro r hr; cases hr

/-- Lifting a per-row property through the whole standard extraction. -/
theorem parseConjugationTable_records (verb : String) (P : Conjugation → Prop)
    (hrow : ∀ tT mood rowIdx cells r, tT ∈ requiredTenses mood →
      stdRowRecord verb tT mood rowIdx cells = .ok (some r) → P r) :
    ∀ (tables : List HTable) (l : List Conjugation),
      parseConjugationTable tables verb = .ok l → ∀ r ∈ l, P r := by
  intro tables
  induction tables with
  | nil =>
    intro l h r hr
    simp only [parseConjugationTable, Except.ok.injEq] at h
    subst h; cases hr
  | cons t ts ih =>
    intro l h r hr
    rw [parseConjugationTable_cons] at h
    rcases hpt : processTable verb t with e | rs
    · rw [hpt] at h; simp at h
    · rw [hpt] at h
      rcases hrec : parseConjugationTable ts verb with e | more
      · rw [hrec] at h; simp at h
      · rw [hrec] at h
        simp only [Except.ok.injEq] at h
        subst h
        rcases List.mem_append.mp hr with hr | hr
        · exact processTable_records verb P hrow t rs hpt r hr
        · exact ih more hrec r hr

/-! C6 — rejection of data rows whose form equals a tense label. -/

/-- C6, counterexample: the pronominal (dual-variant) extractor has no
header-label guard; on this document it emits a record whose cleaned
conjugated form is `Présent`, which case-insensitively equals the known
tense label `présent`.  The claim's guard exists only in the standard
extractor. -/
theorem c6_counterexample :
    parseSasseoir [exTblA, exTblB] "s’asseoir" =
      .ok [{ id := "s’asseoir - indicatif - présent - première_singulier",
             infinitive := "s’asseoir", conjugated_form := "Présent",
             transcription := "", mood := "indicatif", tense := "présent",
             person := "première_singulier" },
           { id := "s’asseoir - indicatif - présent - deuxième_singulier",
             infinitive := "s’asseoir",
             conjugated_form := "nous asseyons ou nous assoyons",
             transcription := "", mood := "indicatif", tense := "présent",
             person := "deuxième_singulier" }] ∧
    strToLower "Présent" ∈ headerGuardLabels := by
  exact ⟨rfl, by decide⟩

/-- C6, amended: a data row whose cleaned conjugated form equals,
case-insensitively, one of the known tense labels `présent`, `imparfait`,
`passé simple`, `futur simple` is discarded by the standard extractor and
never emitted as a record (the pronominal dual-variant extractor performs no
such check). -/
theorem c6_header_label_rows_discarded (tables : List HTable) (verb : String)
    (l : List Conjugation) (h : parseConjugationTable tables verb = .ok l) :
    ∀ r ∈ l, strToLower r.conjugated_form ∉ headerGuardLabels :=
  parseConjugationTable_records verb
    (fun r => strToLower r.conjugated_form ∉ headerGuardLabels)
    (fun tT mood rowIdx cells r _ he =>
      (stdRowRecord_emit verb tT mood rowIdx cells r he).1) tables l h

/-- C6, witness: a concrete standard extraction whose only record's form is
not a tense label. -/
theorem c6_header_label_rows_discarded_witness :
    strToLower "dîne" ∉ headerGuardLabels :=
  c6_header_label_rows_discarded [exTblPresent] "dîner" _ rfl
    { id := "dîner - indicatif - présent - première_singulier",
      infinitive := "dîner", conjugated_form := "dîne", transcription := "",
      mood := "indicatif", tense := "présent", person := "première_singulier" }
    (List.mem_singleton.mpr rfl)

/-! C4 — mood resolution: bounded nearest-first scan with a fixed
tie-break. -/

/-- Helper: `findSome?` over a mapped list composes. -/
theorem findSome?_map_comp {α β γ : Type} (g : α → β) (f : β → Option γ) :
    ∀ l : List α, (l.map g).findSome? f = l.findSome? fun a => f (g a) := by
  intro l
  induction l with
  | nil => rfl
  | cons a tl ih =>
    simp only [List.map_cons, List.findSome?_cons]
    cases f (g a) <;> simp [ih]

/-- Helper: a successful `findSome?` is witnessed by the first index where
the function fires, all earlier indices yielding `none`. -/
theorem findSome?_first_index {α β : Type} (f : α → Option β) (d : α) :
    ∀ (l : List α) (b : β), l.findSome? f = some b →
      ∃ i, i < l.length ∧ f (l.getD i d) = some b ∧
        ∀ j, j < i → f (l.getD j d) = none := by
  intro l
  induction l with
  | nil => intro b h; simp [List.findSome?] at h
  | cons a tl ih =>
    intro b h
    rw [List.findSome?_cons] at h
    rcases ha : f a with _ | b'
    · rw [ha] at h
      obtain ⟨i, hi, hfi, hfj⟩ := ih b h
      refine ⟨i + 1, by simpa using hi, ?_, ?_⟩
      · rw [List.getD_cons_succ]; exact hfi
      · intro j hj
        rcases j with _ | j
        · rw [List.getD_cons_zero]; exact ha
        · rw [List.getD_cons_succ]; exact hfj j (by omega)
    · rw [ha] at h
      simp only [Option.some.injEq] at h
      subst h
      exact ⟨0, by simp, by rw [List.getD_cons_zero]; exact ha,
        fun j hj => absurd hj (by omega)⟩

/-- Helper: `findSome?` returns `none` when the function fires nowhere. -/
theorem findSome?_all_none {α β : Type} (f : α → Option β) (d : α) :
    ∀ l : List α, (∀ i, i < l.length → f (l.getD i d) = none) →
      l.findSome? f = none := by
  intro l
  induction l with
  | nil => intro _; rfl
  | cons a tl ih =>
    intro h
    rw [List.findSome?_cons]
    have h0 : f a = none := by simpa using h 0 (by simp)
    rw [h0]
    exact ih fun i hi => by simpa using h (i + 1) (by simpa using hi)

/-- C4: mood resolution scans at most the 10 nearest preceding elements;
it returns the mood of the first (nearest) element whose stripped,
lower-cased text contains a mood keyword, with the fixed in-element
tie-break `indicatif` over `subjonctif` over `conditionnel`; it returns no
mood when no element within the bound contains a keyword. -/
theorem c4_mood_resolution (ts : List String) :
    (resolveMood ts = resolveMood (ts.take 10)) ∧
    (∀ m, resolveMood ts = some m →
      ∃ i, i < (ts.take 10).length ∧
        moodKeyword (strToLower (pyStrip ((ts.take 10).getD i ""))) = some m ∧
        ∀ j, j < i →
          moodKeyword (strToLower (pyStrip ((ts.take 10).getD j ""))) = none) ∧
    ((∀ i, i < (ts.take 10).length →
        moodKeyword (strToLower (pyStrip ((ts.take 10).getD i ""))) = none) →
      resolveMood ts = none) ∧
    (∀ t : String,
      (strContains t "indicatif" = true → moodKeyword t = some "indicatif") ∧
      (strContains t "indicatif" = false → strContains t "subjonctif" = true →
        moodKeyword t = some "subjonctif") ∧
      (strContains t "indicatif" = false → strContains t "subjonctif" = false →
        strContains t "conditionnel" = true → moodKeyword t = some "conditionnel") ∧
      (strContains t "indicatif" = false → strContains t "subjonctif" = false →
        strContains t "conditionnel" = false → moodKeyword t = none)) := by
  have hrw : resolveMood ts =
      (ts.take 10).findSome? fun t => moodKeyword (strToLower (pyStrip t)) := by
    rw [resolveMood, findSome?_map_comp]
  refine ⟨?_, ?_, ?_, ?_⟩
  · rw [resolveMood, resolveMood, List.take_take]; norm_num
  · intro m h
    rw [hrw] at h
    exact findSome?_first_index _ "" (ts.take 10) m h
  · intro h
    rw [hrw]
    exact findSome?_all_none _ "" (ts.take 10) h
  · intro t
    refine ⟨fun h1 => ?_, fun h1 h2 => ?_, fun h1 h2 h3 => ?_, fun h1 h2 h3 => ?_⟩ <;>
      simp [moodKeyword, h1]
    · simp [h2]
    · simp [h2, h3]
    · simp [h2, h3]

/-- C4, witness: an element mentioning only `subjonctif` two steps away
resolves to `subjonctif`; a document with no keyword within the bound
resolves to no mood. -/
theorem c4_mood_resolution_witness :
    resolveMood ["Temps composés", "Le Subjonctif"] = some "subjonctif" ∧
    resolveMood ["rien", "ici"] = none := by
  constructor
  · rfl
  · exact (c4_mood_resolution ["rien", "ici"]).2.2.1 (by decide)

/-! C5 — pronoun attachment in the pronominal extractor's non-compound
tenses. -/

/-- Helper: the tokeniser never returns an empty list once a token has been
started. -/
theorem wsTokensAux_ne_nil_of_acc :
    ∀ (cs acc : List Char), acc ≠ [] → wsTokensAux acc cs ≠ [] := by
  intro cs
  induction cs with
  | nil =>
    intro acc hacc
    simp only [wsTokensAux]
    rw [if_neg (by simpa using hacc)]
    simp
  | cons c cs ih =>
    intro acc hacc
    simp only [wsTokensAux]
    by_cases hws : isPyWs c
    · rw [if_pos hws, if_neg (by simpa using hacc)]
      simp
    · rw [if_neg hws]
      exact ih (c :: acc) (by simp)

/-- Helper: a non-whitespace character in the input guarantees at least one
token. -/
theorem wsTokensAux_ne_nil_of_sub :
    ∀ (cs acc : List Char), (∃ c ∈ cs, isPyWs c = false) → wsTokensAux acc cs ≠ [] := by
  intro cs
  induction cs with
  | nil => intro acc h; obtain ⟨c, hc, _⟩ := h; cases hc
  | cons c cs ih =>
    intro acc h
    simp only [wsTokensAux]
    by_cases hws : isPyWs c
    · rw [if_pos hws]
      have hcs : ∃ d ∈ cs, isPyWs d = false := by
        obtain ⟨d, hd, hdw⟩ := h
        rcases List.mem_cons.mp hd with rfl | hd
        · rw [hws] at hdw; cases hdw
        · exact ⟨d, hd, hdw⟩
      by_cases hacc : acc.isEmpty
      · rw [if_pos hacc]; exact ih [] hcs
      · rw [if_neg hacc]; simp
    · rw [if_neg hws]
      exact wsTokensAux_ne_nil_of_acc cs (c :: acc) (by simp)

/-- Helper: with a token already started, a space in the remaining input
whose last character is not whitespace forces at least two tokens. -/
theorem wsTokensAux_two_tokens :
    ∀ (cs acc : List Char), acc ≠ [] → ' ' ∈ cs →
      (∀ z, cs.getLast? = some z → isPyWs z = false) →
      2 ≤ (wsTokensAux acc cs).length := by
  intro cs
  induction cs with
  | nil => intro acc _ hsp _; cases hsp
  | cons c cs ih =>
    intro acc hacc hsp hlast
    simp only [wsTokensAux]
    by_cases hws : isPyWs c
    · rw [if_pos hws, if_neg (by simpa using hacc)]
      have hcs : cs ≠ [] := by
        intro hnil
        subst hnil
        have := hlast c rfl
        rw [hws] at this; cases this
      have hzlast : ∀ z, cs.getLast? = some z → isPyWs z = false := by
        intro z hz
        apply hlast
        rcases cs with _ | ⟨d, ds⟩
        · cases hz
        · rw [List.getLast?_cons_cons]; exact hz
      have hnon : ∃ d ∈ cs, isPyWs d = false := by
        rcases hz : cs.getLast? with _ | z
        · rcases cs with _ | ⟨d, ds⟩
          · exact absurd rfl hcs
          · simp [List.getLast?] at hz
        · exact ⟨z, List.mem_of_mem_getLast? hz, hzlast z hz⟩
      have := wsTokensAux_ne_nil_of_sub cs [] hnon
      rcases hres : wsTokensAux [] cs with _ | ⟨tk, tks⟩
      · exact absurd hres this
      · simp
    · rw [if_neg hws]
      have hsp' : ' ' ∈ cs := by
        rcases List.mem_cons.mp hsp with rfl | hsp'
        · exact absurd (show isPyWs ' ' = true from rfl) hws
        · exact hsp'
      have hcs : cs ≠ [] := by rintro rfl; cases hsp'
      refine ih (c :: acc) (by simp) hsp' ?_
      intro z hz
      apply hlast
      rcases cs with _ | ⟨d, ds⟩
      · cases hz
      · rw [List.getLast?_cons_cons]; exact hz

/-- Helper: the head of a `dropWhile` result falsifies the predicate. -/
theorem dropWhile_head_false (q : Char → Bool) :
    ∀ (l : List Char) (c : Char) (t : List Char),
      l.dropWhile q = c :: t → q c = false := by
  intro l
  induction l with
  | nil => intro c t h; cases h
  | cons a tl ih =>
    intro c t h
    rw [List.dropWhile_cons] at h
    by_cases ha : q a
    · rw [if_pos ha] at h; exact ih c t h
    · rw [if_neg ha] at h
      cases h
      simpa using ha

/-- Helper: a non-empty `dropWhile` result keeps the last element. -/
theorem dropWhile_getLast? (q : Char → Bool) :
    ∀ l : List Char, l.dropWhile q ≠ [] → (l.dropWhile q).getLast? = l.getLast? := by
  intro l
  induction l with
  | nil => intro h; exact absurd rfl h
  | cons a tl ih =>
    intro h
    rw [List.dropWhile_cons]
    by_cases ha : q a
    · rw [List.dropWhile_cons, if_pos ha] at h
      rw [if_pos ha, ih h]
      have htl : tl ≠ [] := by
        rintro rfl
        exact h (by simp)
      rcases tl with _ | ⟨b, bs⟩
      · exact absurd rfl htl
      · rw [List.getLast?_cons_cons]
    · rw [if_neg ha]

/-- Helper: the first character of a stripped string is not whitespace. -/
theorem stripL_head_not_ws (l : List Char) (c : Char) (t : List Char)
    (h : stripL l = c :: t) : isPyWs c = false := by
  rw [stripL] at h
  set m := l.dropWhile isPyWs with hm
  set n := m.reverse.dropWhile isPyWs with hn
  have hne : n ≠ [] := by
    intro h0
    rw [h0] at h
    cases h
  have h1 : n.getLast? = some c := by
    rw [← List.head?_reverse, h]
    rfl
  have h2 : n.getLast? = m.reverse.getLast? := dropWhile_getLast? isPyWs m.reverse hne
  rw [h2, List.getLast?_reverse] at h1
  rcases hm2 : m with _ | ⟨d, ds⟩
  · rw [hm2] at h1; cases h1
  · rw [hm2] at h1
    simp only [List.head?_cons, Option.some.injEq] at h1
    rw [← h1]
    exact dropWhile_head_false isPyWs l d ds (hm.symm.trans hm2)

/-- Helper: the last character of a stripped string is not whitespace. -/
theorem stripL_getLast_not_ws (l : List Char) (z : Char)
    (h : (stripL l).getLast? = some z) : isPyWs z = false := by
  rw [stripL] at h
  set m := l.dropWhile isPyWs with hm
  set n := m.reverse.dropWhile isPyWs with hn
  rw [List.getLast?_reverse] at h
  rcases hn2 : n with _ | ⟨d, ds⟩
  · rw [hn2] at h; cases h
  · rw [hn2] at h
    simp only [List.head?_cons, Option.some.injEq] at h
    rw [← h]
    exact dropWhile_head_false isPyWs m.reverse d ds (hn.symm.trans hn2)

/-- Helper: single-character substring containment is membership. -/
theorem containsSubL_single (c : Char) :
    ∀ l : List Char, containsSubL [c] l = true → c ∈ l := by
  intro l
  induction l with
  | nil => intro h; cases h
  | cons a tl ih =>
    intro h
    simp only [containsSubL, Bool.or_eq_true] at h
    rcases h with h | h
    · simp only [prefixOfL, Bool.and_eq_true, beq_iff_eq] at h
      exact h.1 ▸ List.mem_cons_self a tl
    · exact List.mem_cons_of_mem a (ih h)

/-- Helper: the nbsp-to-space map keeps whitespace-ness of characters. -/
theorem nbspFix_ws (c : Char) :
    isPyWs (if c = '\xa0' then ' ' else c) = isPyWs c := by
  by_cases h : c = '\xa0'
  · subst h; rfl
  · rw [if_neg h]

/-- Helper: a stripped, nbsp-normalised pronoun cell containing a space
splits into at least two tokens. -/
theorem wsTokens_two_of_contains (raw : String)
    (h : strContains (replaceNbsp (pyStrip raw)) " " = true) :
    2 ≤ (wsTokens (replaceNbsp (pyStrip raw))).length := by
  have hmem : ' ' ∈ (replaceNbsp (pyStrip raw)).data :=
    containsSubL_single ' ' _ h
  have hdata : (replaceNbsp (pyStrip raw)).data =
      (stripL raw.data).map (fun c => if c = '\xa0' then ' ' else c) := rfl
  rw [hdata] at hmem
  rcases hl : (stripL raw.data).map (fun c => if c = '\xa0' then ' ' else c)
      with _ | ⟨c, cs⟩
  · rw [hl] at hmem; cases hmem
  · rw [hl] at hmem
    obtain ⟨c0, t0, hsl⟩ : ∃ c0 t0, stripL raw.data = c0 :: t0 := by
      rcases hsl : stripL raw.data with _ | ⟨c0, t0⟩
      · rw [hsl] at hl; cases hl
      · exact ⟨c0, t0, rfl⟩
    have hc : c = if c0 = '\xa0' then ' ' else c0 := by
      rw [hsl] at hl
      simp only [List.map_cons] at hl
      exact (List.cons.injEq _ _ _ _ ▸ hl).1.symm
    have hcws : isPyWs c = false := by
      rw [hc, nbspFix_ws]
      exact stripL_head_not_ws raw.data c0 t0 hsl
    have hsp : ' ' ∈ cs := by
      rcases List.mem_cons.mp hmem with rfl | hsp
      · rw [show isPyWs ' ' = true from rfl] at hcws; cases hcws
      · exact hsp
    have hlast : ∀ z, cs.getLast? = some z → isPyWs z = false := by
      intro z hz
      have hz' : ((stripL raw.data).map
          (fun c => if c = '\xa0' then ' ' else c)).getLast? = some z := by
        rw [hl]
        rcases cs with _ | ⟨d, ds⟩
        · cases hz
        · rw [List.getLast?_cons_cons]; exact hz
      rw [List.getLast?_map] at hz'
      rcases hz0 : (stripL raw.data).getLast? with _ | z0
      · rw [hz0] at hz'; cases hz'
      · rw [hz0] at hz'
        simp only [Option.map_some', Option.some.injEq] at hz'
        have := stripL_getLast_not_ws raw.data z0 hz0
        rw [← hz', nbspFix_ws]
        exact this
    have h2 : 2 ≤ (wsTokensAux [] (c :: cs)).length := by
      have hstep : wsTokensAux [] (c :: cs) = wsTokensAux [c] cs := by
        simp only [wsTokensAux, hcws]
        rfl
      rw [hstep]
      exact wsTokensAux_two_tokens cs [c] (by simp) hsp hlast
    have hlen : (wsTokens (replaceNbsp (pyStrip raw))).length =
        (wsTokensAux [] ((replaceNbsp (pyStrip raw)).data)).length := by
      rw [wsTokens, List.length_map]
    rw [hlen, hdata, hl]
    exact h2

/-- C5: in the pronominal row extractor, for every non-Passé-composé data
row whose (stripped, nbsp-normalised) pronoun cell contains a space, the
conjugated form is the last whitespace token of the pronoun cell followed by
a space and the form cell when that token is `nous` or `vous`, and the token
immediately followed by the form cell (no space) otherwise; in particular
pronoun cell `je m'` with form `assieds` gives `m'assieds` and `nous nous`
with `asseyons` gives `nous asseyons`. -/
theorem c5_pronoun_attachment (rawPronoun formCell : String)
    (h : strContains (replaceNbsp (pyStrip rawPronoun)) " " = true) :
    (pronOtherForm (replaceNbsp (pyStrip rawPronoun)) formCell =
      (let tok := (wsTokens (replaceNbsp (pyStrip rawPronoun))).getLastD ""
       if tok = "nous" ∨ tok = "vous" then tok ++ " " ++ formCell
       else tok ++ formCell)) ∧
    pronOtherForm (replaceNbsp (pyStrip "je m'")) "assieds" = "m'assieds" ∧
    pronOtherForm (replaceNbsp (pyStrip "nous nous")) "asseyons" = "nous asseyons" := by
  refine ⟨?_, rfl, rfl⟩
  have h2 := wsTokens_two_of_contains rawPronoun h
  simp only [pronOtherForm]
  rw [if_pos h, if_pos h2]
  by_cases hnv : (wsTokens (replaceNbsp (pyStrip rawPronoun))).getLastD "" = "nous" ∨
      (wsTokens (replaceNbsp (pyStrip rawPronoun))).getLastD "" = "vous"
  · have hm : (wsTokens (replaceNbsp (pyStrip rawPronoun))).getLastD "" ∈
        ["nous", "vous"] := by
      rcases hnv with h' | h'
      · exact List.mem_cons.mpr (Or.inl h')
      · exact List.mem_cons.mpr (Or.inr (List.mem_singleton.mpr h'))
    rw [if_pos hm, if_pos hnv]
  · have hm : (wsTokens (replaceNbsp (pyStrip rawPronoun))).getLastD "" ∉
        ["nous", "vous"] := by
      intro hmem
      rcases List.mem_cons.mp hmem with h' | h'
      · exact hnv (Or.inl h')
      · exact hnv (Or.inr (List.mem_singleton.mp h'))
    rw [if_neg hm, if_neg hnv]

/-- C5, witness: the elision examples from the claim. -/
theorem c5_pronoun_attachment_witness :
    pronOtherForm (replaceNbsp (pyStrip "je m'")) "assieds" = "m'assieds" :=
  (c5_pronoun_attachment "je m'" "assieds" (by decide)).2.1

/-! C3 — the dual-variant merge. -/

/-- Lookup in the `combined` association list. -/
def lookupK (k : VKey) :
    List (VKey × (Option PronConj × Option PronConj)) →
    Option (Option PronConj × Option PronConj)
  | [] => none
  | (k', v) :: rest => if k' = k then some v else lookupK k rest

theorem lookupK_upsertA (k : VKey) (c : PronConj) :
    ∀ m, lookupK k (upsertA c m) =
      if keyOf c = k then some (some c, none) else lookupK k m := by
  intro m
  induction m with
  | nil => simp [upsertA, lookupK]
  | cons e rest ih =>
    obtain ⟨k', v⟩ := e
    by_cases hk' : k' = keyOf c
    · simp only [upsertA, if_pos hk', lookupK]
      by_cases hkk : k' = k
      · rw [if_pos hkk, if_pos (hk'.symm.trans hkk)]
      · rw [if_neg hkk, if_neg (fun h => hkk (hk'.trans h)), if_neg hkk]
    · simp only [upsertA, if_neg hk', lookupK]
      by_cases hkk : k' = k
      · rw [if_pos hkk, if_neg (fun h => hk' (hkk.trans h.symm)), if_pos hkk]
      · rw [if_neg hkk, ih, if_neg hkk]

theorem lookupK_updateB (k : VKey) (c : PronConj) :
    ∀ m, lookupK k (updateB c m) =
      if keyOf c = k then (lookupK k m).map (fun v => (v.1, some c))
      else lookupK k m := by
  intro m
  induction m with
  | nil => simp [updateB, lookupK]
  | cons e rest ih =>
    obtain ⟨k', v⟩ := e
    by_cases hk' : k' = keyOf c
    · simp only [updateB, if_pos hk', lookupK]
      by_cases hkk : k' = k
      · rw [if_pos hkk, if_pos (hk'.symm.trans hkk), if_pos hkk]
        rfl
      · rw [if_neg hkk, if_neg (fun h => hkk (hk'.trans h)), if_neg hkk]
    · simp only [updateB, if_neg hk', lookupK]
      by_cases hkk : k' = k
      · rw [if_pos hkk, if_neg (fun h => hk' (hkk.trans h.symm)), if_pos hkk]
      · rw [if_neg hkk, ih, if_neg hkk]

theorem lookupK_foldA_not_mem (k : VKey) :
    ∀ (A : List PronConj) (m0 : List (VKey × (Option PronConj × Option PronConj))),
      (∀ a ∈ A, keyOf a ≠ k) →
      lookupK k (A.foldl (fun m c => upsertA c m) m0) = lookupK k m0 := by
  intro A
  induction A with
  | nil => intro m0 _; rfl
  | cons a0 A' ih =>
    intro m0 h
    rw [List.foldl_cons, ih (upsertA a0 m0)
      (fun a ha => h a (List.mem_cons_of_mem _ ha))]
    rw [lookupK_upsertA, if_neg (h a0 (List.mem_cons_self _ _))]

theorem lookupK_foldA_mem (k : VKey) :
    ∀ (A : List PronConj) (m0 : List (VKey × (Option PronConj × Option PronConj)))
      (a : PronConj), (A.map keyOf).Nodup → a ∈ A → keyOf a = k →
      lookupK k (A.foldl (fun m c => upsertA c m) m0) = some (some a, none) := by
  intro A
  induction A with
  | nil => intro m0 a _ ha; cases ha
  | cons a0 A' ih =>
    intro m0 a hnd ha hk
    rw [List.map_cons, List.nodup_cons] at hnd
    rw [List.foldl_cons]
    rcases List.mem_cons.mp ha with rfl | ha'
    · have hnone : ∀ a' ∈ A', keyOf a' ≠ k := by
        intro a' ha' hk'
        exact hnd.1 (hk ▸ hk' ▸ List.mem_map_of_mem keyOf ha')
      rw [lookupK_foldA_not_mem k A' (upsertA a m0) hnone,
        lookupK_upsertA, if_pos hk]
    · exact ih (upsertA a0 m0) a hnd.2 ha' hk

theorem lookupK_foldB_not_mem (k : VKey) :
    ∀ (B : List PronConj) (m0 : List (VKey × (Option PronConj × Option PronConj))),
      (∀ b ∈ B, keyOf b ≠ k) →
      lookupK k (B.foldl (fun m c => updateB c m) m0) = lookupK k m0 := by
  intro B
  induction B with
  | nil => intro m0 _; rfl
  | cons b0 B' ih =>
    intro m0 h
    rw [List.foldl_cons, ih (updateB b0 m0)
      (fun b hb => h b (List.mem_cons_of_mem _ hb))]
    rw [lookupK_updateB, if_neg (h b0 (List.mem_cons_self _ _))]

theorem lookupK_foldB_mem (k : VKey) :
    ∀ (B : List PronConj) (m0 : List (VKey × (Option PronConj × Option PronConj)))
      (b : PronConj), (B.map keyOf).Nodup → b ∈ B → keyOf b = k →
      lookupK k (B.foldl (fun m c => updateB c m) m0) =
        (lookupK k m0).map (fun v => (v.1, some b)) := by
  intro B
  induction B with
  | nil => intro m0 b _ hb; cases hb
  | cons b0 B' ih =>
    intro m0 b hnd hb hk
    rw [List.map_cons, List.nodup_cons] at hnd
    rw [List.foldl_cons]
    rcases List.mem_cons.mp hb with rfl | hb'
    · have hnone : ∀ b' ∈ B', keyOf b' ≠ k := by
        intro b' hb' hk'
        exact hnd.1 (hk ▸ hk' ▸ List.mem_map_of_mem keyOf hb')
      rw [lookupK_foldB_not_mem k B' (updateB b m0) hnone,
        lookupK_updateB, if_pos hk]
    · have hk0 : keyOf b0 ≠ k := by
        intro hk0
        exact hnd.1 (hk0 ▸ hk ▸ (List.mem_map_of_mem keyOf hb' : keyOf b ∈ _))
      rw [ih (updateB b0 m0) b hnd.2 hb' hk, lookupK_updateB, if_neg hk0]

theorem mem_of_lookupK (k : VKey) (v : Option PronConj × Option PronConj) :
    ∀ m, lookupK k m = some v → (k, v) ∈ m := by
  intro m
  induction m with
  | nil => intro h; cases h
  | cons e rest ih =>
    obtain ⟨k', v'⟩ := e
    intro h
    simp only [lookupK] at h
    by_cases hkk : k' = k
    · rw [if_pos hkk] at h
      simp only [Option.some.injEq] at h
      subst hkk; subst h
      exact List.mem_cons_self _ _
    · rw [if_neg hkk] at h
      exact List.mem_cons_of_mem _ (ih h)

theorem mem_upsertA (c : PronConj) (e : VKey × (Option PronConj × Option PronConj)) :
    ∀ m, e ∈ upsertA c m → e = (keyOf c, (some c, none)) ∨ e ∈ m := by
  intro m
  induction m with
  | nil =>
    intro h
    simp only [upsertA] at h
    exact Or.inl (List.mem_singleton.mp h)
  | cons e' rest ih =>
    obtain ⟨k', v'⟩ := e'
    intro h
    simp only [upsertA] at h
    by_cases hk' : k' = keyOf c
    · rw [if_pos hk'] at h
      rcases List.mem_cons.mp h with rfl | h'
      · exact Or.inl (by rw [hk'])
      · exact Or.inr (List.mem_cons_of_mem _ h')
    · rw [if_neg hk'] at h
      rcases List.mem_cons.mp h with rfl | h'
      · exact Or.inr (List.mem_cons_self _ _)
      · rcases ih h' with h'' | h''
        · exact Or.inl h''
        · exact Or.inr (List.mem_cons_of_mem _ h'')

theorem mem_foldA (e : VKey × (Option PronConj × Option PronConj)) :
    ∀ (A : List PronConj) (m0 : List (VKey × (Option PronConj × Option PronConj))),
      e ∈ A.foldl (fun m c => upsertA c m) m0 →
      (∃ a ∈ A, e = (keyOf a, (some a, none))) ∨ e ∈ m0 := by
  intro A
  induction A with
  | nil => intro m0 h; exact Or.inr h
  | cons a0 A' ih =>
    intro m0 h
    rw [List.foldl_cons] at h
    rcases ih (upsertA a0 m0) h with h' | h'
    · obtain ⟨a, ha, he⟩ := h'
      exact Or.inl ⟨a, List.mem_cons_of_mem _ ha, he⟩
    · rcases mem_upsertA a0 e m0 h' with h'' | h''
      · exact Or.inl ⟨a0, List.mem_cons_self _ _, h''⟩
      · exact Or.inr h''

theorem mem_updateB (c : PronConj) (e : VKey × (Option PronConj × Option PronConj)) :
    ∀ m, e ∈ updateB c m →
      e ∈ m ∨ (keyOf c = e.1 ∧ e.2.2 = some c ∧ ∃ ob, (e.1, (e.2.1, ob)) ∈ m) := by
  intro m
  induction m with
  | nil => intro h; cases h
  | cons e' rest ih =>
    obtain ⟨k', v'⟩ := e'
    intro h
    simp only [updateB] at h
    by_cases hk' : k' = keyOf c
    · rw [if_pos hk'] at h
      rcases List.mem_cons.mp h with rfl | h'
      · exact Or.inr ⟨hk'.symm, rfl, v'.2, List.mem_cons_self _ _⟩
      · exact Or.inl (List.mem_cons_of_mem _ h')
    · rw [if_neg hk'] at h
      rcases List.mem_cons.mp h with rfl | h'
      · exact Or.inl (List.mem_cons_self _ _)
      · rcases ih h' with h'' | ⟨hh1, hh2, ob, hh3⟩
        · exact Or.inl (List.mem_cons_of_mem _ h'')
        · exact Or.inr ⟨hh1, hh2, ob, List.mem_cons_of_mem _ hh3⟩

theorem mem_foldB (e : VKey × (Option PronConj × Option PronConj)) :
    ∀ (B : List PronConj) (m0 : List (VKey × (Option PronConj × Option PronConj))),
      e ∈ B.foldl (fun m c => updateB c m) m0 →
      (∃ ob, (e.1, (e.2.1, ob)) ∈ m0) ∧
      (e ∈ m0 ∨ ∃ b ∈ B, keyOf b = e.1 ∧ e.2.2 = some b) := by
  intro B
  induction B with
  | nil =>
    intro m0 h
    exact ⟨⟨e.2.2, h⟩, Or.inl h⟩
  | cons b0 B' ih =>
    intro m0 h
    rw [List.foldl_cons] at h
    obtain ⟨⟨ob, hslot⟩, hsrc⟩ := ih (updateB b0 m0) h
    constructor
    · rcases mem_updateB b0 _ m0 hslot with h' | ⟨_, _, ob', h'⟩
      · exact ⟨ob, h'⟩
      · exact ⟨ob', h'⟩
    · rcases hsrc with h' | ⟨b, hb, hkb, hsb⟩
      · rcases mem_updateB b0 e m0 h' with h'' | ⟨hh1, hh2, _, _⟩
        · exact Or.inl h''
        · exact Or.inr ⟨b0, List.mem_cons_self _ _, hh1, hh2⟩
      · exact Or.inr ⟨b, List.mem_cons_of_mem _ hb, hkb, hsb⟩

/-- Every entry of the combined map carries an A-variant record whose key is
the entry's key. -/
theorem buildCombined_slotA (A B : List PronConj)
    (e : VKey × (Option PronConj × Option PronConj))
    (h : e ∈ buildCombined A B) : ∃ a ∈ A, keyOf a = e.1 ∧ e.2.1 = some a := by
  obtain ⟨⟨ob, hslot⟩, _⟩ := mem_foldB e B _ h
  rcases mem_foldA _ A [] hslot with ⟨a, ha, he⟩ | h'
  · refine ⟨a, ha, ?_, ?_⟩
    · exact (congrArg Prod.fst he).symm
    · have := congrArg Prod.snd he
      simp only [] at this
      exact congrArg Prod.fst this
  · cases h'

/-- A filled B-slot of a combined entry comes from a B-variant record with
the entry's key. -/
theorem buildCombined_slotB (A B : List PronConj)
    (e : VKey × (Option PronConj × Option PronConj)) (b : PronConj)
    (h : e ∈ buildCombined A B) (hb : e.2.2 = some b) :
    b ∈ B ∧ keyOf b = e.1 := by
  obtain ⟨_, hsrc⟩ := mem_foldB e B _ h
  rcases hsrc with h' | ⟨b', hb', hkb', hsb'⟩
  · rcases mem_foldA _ A [] h' with ⟨a, _, he⟩ | h''
    · have := congrArg Prod.snd he
      simp only [] at this
      have h22 := congrArg Prod.snd this
      simp only [] at h22
      rw [h22] at hb
      cases hb
    · cases h''
  · rw [hsb'] at hb
    simp only [Option.some.injEq] at hb
    exact ⟨hb ▸ hb', hb ▸ hkb'⟩

/-- C3: in the dual-variant merge, a key present in only one variant yields
no output record; a key present in both variants (keys unique per variant)
yields a record whose form is `A ou B` when the two forms differ and the
single shared value when they coincide, with the assieds (variant-A) form
first. -/
theorem c3_dual_variant_merge (verb : String) (A B : List PronConj) :
    (∀ k : VKey, ((∀ a ∈ A, keyOf a ≠ k) ∨ (∀ b ∈ B, keyOf b ≠ k)) →
      ∀ r ∈ mergeVariants verb A B, (r.mood, r.tense, r.person) ≠ k) ∧
    ((A.map keyOf).Nodup → (B.map keyOf).Nodup →
      ∀ a ∈ A, ∀ b ∈ B, keyOf a = keyOf b →
        ∃ r ∈ mergeVariants verb A B,
          (r.mood, r.tense, r.person) = keyOf a ∧
          r.conjugated_form =
            (if a.conjugated_form = b.conjugated_form then a.conjugated_form
             else a.conjugated_form ++ " ou " ++ b.conjugated_form)) := by
  constructor
  · intro k hk r hr hkey
    obtain ⟨e, he, hmk⟩ := List.mem_filterMap.mp hr
    rcases hma : e.2.1 with _ | a'
    · rw [hma] at hmk; cases hmk
    · rcases hmb : e.2.2 with _ | b'
      · rw [hma, hmb] at hmk; cases hmk
      · rw [hma, hmb] at hmk
        simp only [Option.some.injEq] at hmk
        have hre : (r.mood, r.tense, r.person) = e.1 := by rw [← hmk]; rfl
        rw [hre] at hkey
        rcases hk with hk | hk
        · obtain ⟨a, ha, hka, _⟩ := buildCombined_slotA A B e he
          exact hk a ha (hkey ▸ hka)
        · obtain ⟨hbB, hkb⟩ := buildCombined_slotB A B e b' he hmb
          exact hk b' hbB (hkey ▸ hkb)
  · intro hndA hndB a ha b hb hk
    have h1 : lookupK (keyOf a) (A.foldl (fun m c => upsertA c m) []) =
        some (some a, none) :=
      lookupK_foldA_mem (keyOf a) A [] a hndA ha rfl
    have h2 : lookupK (keyOf a) (buildCombined A B) = some (some a, some b) := by
      rw [buildCombined, lookupK_foldB_mem (keyOf a) B _ b hndB hb hk.symm, h1]
      rfl
    have hmem := mem_of_lookupK (keyOf a) (some a, some b) _ h2
    refine ⟨mergeRec verb (keyOf a) a b, ?_, rfl, ?_⟩
    · exact List.mem_filterMap.mpr ⟨(keyOf a, (some a, some b)), hmem, rfl⟩
    · by_cases heq : a.conjugated_form = b.conjugated_form
      · rw [if_pos heq]
        exact if_neg (fun hne => hne heq)
      · rw [if_neg heq]
        exact if_pos heq

/-- C3, witness: concrete one-record variant lists with differing forms
produce the combined `assieds ou assois` record; the key present in only
one variant is dropped. -/
theorem c3_dual_variant_merge_witness :
    (∀ r ∈ mergeVariants "s’asseoir"
        [⟨"m'assieds", "", "indicatif", "présent", "première_singulier"⟩]
        [⟨"m'assois", "", "indicatif", "présent", "première_singulier"⟩,
         ⟨"t'assois", "", "indicatif", "présent", "deuxième_singulier"⟩],
      (r.mood, r.tense, r.person) ≠ ("indicatif", "présent", "deuxième_singulier")) ∧
    ∃ r ∈ mergeVariants "s’asseoir"
        [⟨"m'assieds", "", "indicatif", "présent", "première_singulier"⟩]
        [⟨"m'assois", "", "indicatif", "présent", "première_singulier"⟩,
         ⟨"t'assois", "", "indicatif", "présent", "deuxième_singulier"⟩],
      (r.mood, r.tense, r.person) = ("indicatif", "présent", "première_singulier") ∧
      r.conjugated_form = "m'assieds ou m'assois" := by
  constructor
  · exact (c3_dual_variant_merge "s’asseoir" _ _).1
      ("indicatif", "présent", "deuxième_singulier") (Or.inl (by decide))
  · have h := (c3_dual_variant_merge "s’asseoir"
        [⟨"m'assieds", "", "indicatif", "présent", "première_singulier"⟩]
        [⟨"m'assois", "", "indicatif", "présent", "première_singulier"⟩,
         ⟨"t'assois", "", "indicatif", "présent", "deuxième_singulier"⟩]).2
      (by decide) (by decide)
      ⟨"m'assieds", "", "indicatif", "présent", "première_singulier"⟩ (by decide)
      ⟨"m'assois", "", "indicatif", "présent", "première_singulier"⟩ (by decide) rfl
    obtain ⟨r, hr, hkey, hform⟩ := h
    exact ⟨r, hr, hkey, by rw [hform]; decide⟩

/-! C9 — the tense field: display text in the standard extractor, slug in
the dual-variant extractor. -/

/-- The lower-cased display labels (space-separated). -/
def lowLabels5 : List String :=
  ["présent", "imparfait", "passé simple", "passé composé", "futur simple"]

/-- The underscore slugs. -/
def slugLabels5 : List String :=
  ["présent", "imparfait", "passé_simple", "passé_composé", "futur_simple"]

theorem requiredTenses_sub (mood tT : String) (h : tT ∈ requiredTenses mood) :
    tT ∈ tenseLabels5 := by
  rw [requiredTenses] at h
  split_ifs at h
  · exact h
  · rcases List.mem_cons.mp h with rfl | h'
    · decide
    · rcases List.mem_singleton.mp h' with rfl
      decide
  · rcases List.mem_singleton.mp h with rfl
    decide
  · cases h

theorem label_lower_mem (tT : String) (h : tT ∈ tenseLabels5) :
    strToLower tT ∈ lowLabels5 := by
  fin_cases h <;> decide

theorem label_slug_mem (tT : String) (h : tT ∈ tenseLabels5) :
    strSlug tT ∈ slugLabels5 := by
  fin_cases h <;> decide

/-- Every record of one pronominal data row carries a slug tense. -/
theorem pronRowRec_tense (m ct : String) (idx : Nat) (c0 c1 : String)
    (pronCells : List String) (h : ct ∈ tenseLabels5) :
    ∀ rec ∈ pronRowRec m ct idx c0 c1 pronCells, rec.tense ∈ slugLabels5 := by
  intro rec hrec
  simp only [pronRowRec] at hrec
  have main : ∀ f : String,
      rec ∈ (if f ≠ "" ∧ f ≠ "—" ∧ f ≠ "-" then
        (match persons.get? idx with
         | some (p, n) =>
           [PronConj.mk (rstripPunct f) (pronunciationOf pronCells) m
             (strSlug ct) (p ++ "_" ++ n)]
         | none => []) else []) →
      rec.tense ∈ slugLabels5 := by
    intro f hf
    split_ifs at hf
    · rcases hp : persons.get? idx with _ | ⟨p, n⟩
      · rw [hp] at hf; cases hf
      · rw [hp] at hf
        rcases List.mem_singleton.mp hf with rfl
        exact label_slug_mem ct h
    · cases hf
  exact main _ hrec

/-- Every record of the pronominal row loop carries a slug tense. -/
theorem pronRows_tense (mood : Option String) :
    ∀ (rows : List (List String)) (ct : Option String) (idx : Nat),
      (∀ t, ct = some t → t ∈ tenseLabels5) →
      ∀ rec ∈ pronRows mood ct idx rows, rec.tense ∈ slugLabels5 := by
  intro rows
  induction rows with
  | nil => intro ct idx _ rec hrec; cases hrec
  | cons row rest ih =>
    intro ct idx hct rec hrec
    rcases row with _ | ⟨c0, restCells⟩
    · exact ih ct idx hct rec hrec
    · simp only [pronRows] at hrec
      by_cases hhdr : pyStrip c0 ∈ tenseLabels5
      · rw [if_pos hhdr] at hrec
        exact ih (some (pyStrip c0)) 0 (fun t ht => by cases ht; exact hhdr) rec hrec
      · rw [if_neg hhdr] at hrec
        rcases ct with _ | ct'
        · exact ih none idx hct rec hrec
        · rcases mood with _ | m
          · exact ih (some ct') idx hct rec hrec
          · simp only [] at hrec
            by_cases hreq : ct' ∈ requiredTenses m
            · rw [if_pos hreq] at hrec
              rcases restCells with _ | ⟨c1, pronCells⟩
              · exact ih (some ct') idx hct rec hrec
              · simp only [] at hrec
                have hlbl : ct' ∈ tenseLabels5 := hct ct' rfl
                by_cases h6 : 6 ≤ idx + 1
                · rw [if_pos h6] at hrec
                  rcases List.mem_append.mp hrec with hl | hr
                  · exact pronRowRec_tense m ct' idx c0 c1 pronCells hlbl rec hl
                  · exact ih none 0 (fun t ht => by cases ht) rec hr
                · rw [if_neg h6] at hrec
                  rcases List.mem_append.mp hrec with hl | hr
                  · exact pronRowRec_tense m ct' idx c0 c1 pronCells hlbl rec hl
                  · exact ih (some ct') (idx + 1) hct rec hr
            · rw [if_neg hreq] at hrec
              exact ih (some ct') idx hct rec hrec

/-- C9: every record produced by the standard extractor has as tense field
the lower-cased, space-separated display label, while every record produced
by the dual-variant merge path (both variants present) has as tense field
the underscore slug. -/
theorem c9_tense_field (tables : List HTable) (verb : String) (l : List Conjugation) :
    (parseConjugationTable tables verb = .ok l → ∀ r ∈ l, r.tense ∈ lowLabels5) ∧
    (tables.filter isAssiedsTable ≠ [] → tables.filter isAssoisTable ≠ [] →
      parseSasseoir tables verb = .ok l → ∀ r ∈ l, r.tense ∈ slugLabels5) := by
  constructor
  · intro h
    refine parseConjugationTable_records verb (fun r => r.tense ∈ lowLabels5)
      (fun tT mood rowIdx cells r ht he => ?_) tables l h
    show r.tense ∈ lowLabels5
    rw [(stdRowRecord_emit verb tT mood rowIdx cells r he).2.1]
    exact label_lower_mem tT (requiredTenses_sub mood tT ht)
  · intro hA hB h
    rw [parseSasseoir, if_neg (by
      simp only [Bool.or_eq_true, List.isEmpty_iff]
      rintro (h' | h')
      · exact hA h'
      · exact hB h')] at h
    simp only [Except.ok.injEq] at h
    subst h
    intro r hr
    obtain ⟨e, he, hmk⟩ := List.mem_filterMap.mp hr
    rcases hma : e.2.1 with _ | a'
    · rw [hma] at hmk; cases hmk
    · rcases hmb : e.2.2 with _ | b'
      · rw [hma, hmb] at hmk; cases hmk
      · rw [hma, hmb] at hmk
        simp only [Option.some.injEq] at hmk
        obtain ⟨a, haA, hka, hsa⟩ := buildCombined_slotA _ _ e he
        have hrt : r.tense = a.tense := by
          rw [← hmk, ← hka]
          rfl
        rw [hrt]
        obtain ⟨t, htmem, hat⟩ := List.mem_flatMap.mp haA
        exact pronRows_tense (resolveMoodHeadings t.prevHeadings) t.rows none 0
          (fun t' ht' => by cases ht') a hat

/-- C9, witness: a standard extraction whose record's tense is the display
label, and a dual-variant extraction whose records' tenses are slugs. -/
theorem c9_tense_field_witness :
    ({ id := "dîner - indicatif - présent - première_singulier",
       infinitive := "dîner", conjugated_form := "dîne", transcription := "",
       mood := "indicatif", tense := "présent",
       person := "première_singulier" } : Conjugation).tense ∈ lowLabels5 ∧
    ({ id := "s’asseoir - indicatif - présent - première_singulier",
       infinitive := "s’asseoir", conjugated_form := "Présent",
       transcription := "", mood := "indicatif", tense := "présent",
       person := "première_singulier" } : Conjugation).tense ∈ slugLabels5 := by
  constructor
  · exact (c9_tense_field [exTblPresent] "dîner"
      [{ id := "dîner - indicatif - présent - première_singulier",
         infinitive := "dîner", conjugated_form := "dîne", transcription := "",
         mood := "indicatif", tense := "présent",
         person := "première_singulier" }]).1 rfl _ (List.mem_singleton.mpr rfl)
  · exact (c9_tense_field [exTblA, exTblB] "s’asseoir"
      [{ id := "s’asseoir - indicatif - présent - première_singulier",
         infinitive := "s’asseoir", conjugated_form := "Présent",
         transcription := "", mood := "indicatif", tense := "présent",
         person := "première_singulier" },
       { id := "s’asseoir - indicatif - présent - deuxième_singulier",
         infinitive := "s’asseoir",
         conjugated_form := "nous asseyons ou nous assoyons",
         transcription := "", mood := "indicatif", tense := "présent",
         person := "deuxième_singulier" }]).2 (by decide) (by decide) rfl _
      (List.mem_cons_self _ _)

/-! C8 — id uniqueness and first-seen order in the batch output. -/

/-- Deduplication only looks at membership of the seen set. -/
theorem dedupeAux_congr :
    ∀ (l : List Conjugation) (seen1 seen2 : List String),
      (∀ s, s ∈ seen1 ↔ s ∈ seen2) → dedupeAux seen1 l = dedupeAux seen2 l := by
  intro l
  induction l with
  | nil => intro _ _ _; rfl
  | cons r rs ih =>
    intro seen1 seen2 hiff
    simp only [dedupeAux]
    by_cases h1 : r.id ∈ seen1
    · rw [if_pos h1, if_pos ((hiff r.id).mp h1)]
      exact ih seen1 seen2 hiff
    · rw [if_neg h1, if_neg (fun h2 => h1 ((hiff r.id).mpr h2))]
      rw [ih (r.id :: seen1) (r.id :: seen2) (fun s => by
        simp only [List.mem_cons]
        exact or_congr Iff.rfl (hiff s))]

/-- Deduplication distributes over append, threading the seen ids. -/
theorem dedupeAux_append :
    ∀ (xs ys : List Conjugation) (seen : List String),
      dedupeAux seen (xs ++ ys) =
        dedupeAux seen xs ++
          dedupeAux ((dedupeAux seen xs).map (fun r => r.id) ++ seen) ys := by
  intro xs
  induction xs with
  | nil => intro ys seen; rfl
  | cons x xs' ih =>
    intro ys seen
    by_cases hx : x.id ∈ seen
    · simp only [List.cons_append, dedupeAux, if_pos hx, List.append_eq]
      exact ih ys seen
    · simp only [List.cons_append, dedupeAux, if_neg hx, List.map_cons,
        List.append_eq]
      rw [ih ys (x.id :: seen)]
      rw [dedupeAux_congr ys
        ((dedupeAux (x.id :: seen) xs').map (fun r => r.id) ++ (x.id :: seen))
        (x.id :: ((dedupeAux (x.id :: seen) xs').map (fun r => r.id) ++ seen))
        (fun s => by simp only [List.mem_cons, List.mem_append]; tauto)]

/-- The result ids are duplicate-free and avoid the seen set. -/
theorem dedupeAux_nodup :
    ∀ (l : List Conjugation) (seen : List String),
      ((dedupeAux seen l).map (fun r => r.id)).Nodup ∧
      ∀ s ∈ seen, s ∉ (dedupeAux seen l).map (fun r => r.id) := by
  intro l
  induction l with
  | nil => intro seen; exact ⟨List.nodup_nil, fun s _ h => (List.not_mem_nil s h)⟩
  | cons r rs ih =>
    intro seen
    simp only [dedupeAux]
    by_cases hr : r.id ∈ seen
    · rw [if_pos hr]
      exact ih seen
    · rw [if_neg hr]
      obtain ⟨ihn, ihs⟩ := ih (r.id :: seen)
      constructor
      · simp only [List.map_cons, List.nodup_cons]
        exact ⟨ihs r.id (List.mem_cons_self _ _), ihn⟩
      · intro s hs
        simp only [List.map_cons, List.mem_cons]
        rintro (rfl | hmem)
        · exact hr hs
        · exact ihs s (List.mem_cons_of_mem _ hs) hmem

/-- The result is a sublist of the input (order preserved, only drops). -/
theorem dedupeAux_sublist :
    ∀ (l : List Conjugation) (seen : List String), (dedupeAux seen l).Sublist l := by
  intro l
  induction l with
  | nil => intro _; exact List.Sublist.refl []
  | cons r rs ih =>
    intro seen
    simp only [dedupeAux]
    by_cases hr : r.id ∈ seen
    · rw [if_pos hr]
      exact (ih seen).cons r
    · rw [if_neg hr]
      exact (ih (r.id :: seen)).cons₂ r

/-- Every unseen input id is represented in the result. -/
theorem dedupeAux_covers :
    ∀ (l : List Conjugation) (seen : List String) (r : Conjugation),
      r ∈ l → r.id ∉ seen → ∃ r' ∈ dedupeAux seen l, r'.id = r.id := by
  intro l
  induction l with
  | nil => intro seen r hr; cases hr
  | cons x xs ih =>
    intro seen r hr hns
    simp only [dedupeAux]
    by_cases hx : x.id ∈ seen
    · rw [if_pos hx]
      rcases List.mem_cons.mp hr with rfl | hr'
      · exact absurd hx hns
      · exact ih seen r hr' hns
    · rw [if_neg hx]
      rcases List.mem_cons.mp hr with rfl | hr'
      · exact ⟨r, List.mem_cons_self _ _, rfl⟩
      · by_cases hid : r.id = x.id
        · exact ⟨x, List.mem_cons_self _ _, hid.symm⟩
        · have hns' : r.id ∉ x.id :: seen := by
            intro hmem
            rcases List.mem_cons.mp hmem with h' | h'
            · exact hid h'
            · exact hns h'
          obtain ⟨r', hr'', hid'⟩ := ih (x.id :: seen) r hr' hns'
          exact ⟨r', List.mem_cons_of_mem _ hr'', hid'⟩

/-- Every output record is the first input record bearing its id. -/
theorem dedupeAux_first :
    ∀ (l : List Conjugation) (seen : List String) (r' : Conjugation),
      r' ∈ dedupeAux seen l →
      r'.id ∉ seen ∧ ∃ i : Nat, l[i]? = some r' ∧
        ∀ j : Nat, j < i → ∀ rj : Conjugation, l[j]? = some rj → rj.id ≠ r'.id := by
  intro l
  induction l with
  | nil => intro seen r' hr'; cases hr'
  | cons x xs ih =>
    intro seen r' hr'
    simp only [dedupeAux] at hr'
    by_cases hx : x.id ∈ seen
    · rw [if_pos hx] at hr'
      obtain ⟨hns, i, hi, hj⟩ := ih seen r' hr'
      refine ⟨hns, i + 1, by rw [List.getElem?_cons_succ]; exact hi, ?_⟩
      intro j hji rj hrj
      rcases j with _ | j
      · simp only [List.getElem?_cons_zero, Option.some.injEq] at hrj
        subst hrj
        exact fun h => hns (h ▸ hx)
      · rw [List.getElem?_cons_succ] at hrj
        exact hj j (by omega) rj hrj
    · rw [if_neg hx] at hr'
      rcases List.mem_cons.mp hr' with rfl | hr''
      · exact ⟨hx, 0, List.getElem?_cons_zero, fun j hj => absurd hj (Nat.not_lt_zero j)⟩
      · obtain ⟨hns, i, hi, hj⟩ := ih (x.id :: seen) r' hr''
        have hnid : r'.id ≠ x.id := fun h => hns (List.mem_cons.mpr (Or.inl h))
        refine ⟨fun h => hns (List.mem_cons_of_mem _ h), i + 1,
          by rw [List.getElem?_cons_succ]; exact hi, ?_⟩
        intro j hji rj hrj
        rcases j with _ | j
        · simp only [List.getElem?_cons_zero, Option.some.injEq] at hrj
          subst hrj
          exact fun h => hnid h.symm
        · rw [List.getElem?_cons_succ] at hrj
          exact hj j (by omega) rj hrj

/-- The successful batch output is exactly the interleaved deduplication of
the concatenated per-verb record lists. -/
theorem batchAux_ok_eq :
    ∀ (items : List (String × List HTable)) (seen : List String)
      (l : List Conjugation), batchAux seen items = .ok l →
      l = dedupeAux seen
        ((items.map (fun x => ((scrapeVerb x.2 x.1).toOption).getD [])).flatten) := by
  intro items
  induction items with
  | nil =>
    intro seen l h
    simp only [batchAux, Except.ok.injEq] at h
    subst h; rfl
  | cons x rest ih =>
    intro seen l h
    obtain ⟨v, d⟩ := x
    rw [batchAux_cons] at h
    rcases hv : scrapeVerb d v with e | c
    · rw [hv] at h; cases h
    · rw [hv] at h
      simp only [] at h
      rcases hrest : batchAux ((dedupeAux seen c).map (fun r => r.id) ++ seen) rest
          with e | more
      · rw [hrest] at h; cases h
      · rw [hrest] at h
        simp only [Except.ok.injEq] at h
        subst h
        have hmore := ih _ more hrest
        have hfout : (fun x : String × List HTable =>
            ((scrapeVerb x.2 x.1).toOption).getD []) (v, d) = c := by
          simp [hv, Except.toOption]
        simp only [List.map_cons, List.flatten_cons, hfout]
        rw [dedupeAux_append, hmore]

/-- C8: for every successful batch run, no two output records share an id;
the output is a sublist of the concatenated per-verb record lists
(first-seen order preserved), every extracted id is represented, and each
output record is the first extracted record carrying its id. -/
theorem c8_batch_dedup (items : List (String × List HTable)) (l : List Conjugation)
    (h : scrapeBatch items = .ok l) :
    ((l.map (fun r => r.id)).Nodup) ∧
    l.Sublist ((items.map (fun x => ((scrapeVerb x.2 x.1).toOption).getD [])).flatten) ∧
    (∀ r ∈ (items.map (fun x => ((scrapeVerb x.2 x.1).toOption).getD [])).flatten,
      ∃ r' ∈ l, r'.id = r.id) ∧
    (∀ r' ∈ l, ∃ i : Nat,
      ((items.map (fun x => ((scrapeVerb x.2 x.1).toOption).getD [])).flatten)[i]?
        = some r' ∧
      ∀ j : Nat, j < i → ∀ rj : Conjugation,
        ((items.map (fun x => ((scrapeVerb x.2 x.1).toOption).getD [])).flatten)[j]?
          = some rj → rj.id ≠ r'.id) := by
  have hl := batchAux_ok_eq items [] l h
  subst hl
  refine ⟨(dedupeAux_nodup _ []).1, dedupeAux_sublist _ [], ?_, ?_⟩
  · intro r hr
    exact dedupeAux_covers _ [] r hr (List.not_mem_nil r.id)
  · intro r' hr'
    exact (dedupeAux_first _ [] r' hr').2

/-- C8, witness: the same verb scraped twice yields its record once. -/
theorem c8_batch_dedup_witness :
    (([{ id := "dîner - indicatif - présent - première_singulier",
         infinitive := "dîner", conjugated_form := "dîne", transcription := "",
         mood := "indicatif", tense := "présent",
         person := "première_singulier" }] : List Conjugation).map
      (fun r => r.id)).Nodup :=
  (c8_batch_dedup [("dîner", [exTblPresent]), ("dîner", [exTblPresent])] _ rfl).1
